import Mathlib

/-!
Verification of the token-level label analysis engine of this repository
(`src/skweak/analysis.py`, class `LFAnalysis`).

The engine builds a token-by-source integer matrix `L` from an annotated
corpus: `L[i, j]` is the label index assigned to token `i` by source `j`,
with `0` standing for the reserved null label `"O"` / "no annotation".
On top of `L` it computes indicator vectors (covered / overlapped /
conflicted tokens) and tabular coverage, overlap and conflict statistics.

Rows of the matrix are modelled as `List ℕ` (label indices are
non-negative machine integers whose values stay far below any overflow
boundary: they are indices into the label vocabulary), the matrix as a
list of rows, and the float results of the statistics as exact rationals
together with an explicit IEEE-special-value constructor (`NpFloat`) so
that numpy's `0/0 = nan` behaviour and `np.nan_to_num` are modelled
faithfully.

Functions of `analysis.py` keep their source names where Lean allows it.
The two helpers that the class imports from `skweak.utils`
(`_index_labels` and `_spans_to_array`) are not part of the sources under
review; they are modelled from the specification and carry a
`Modelled from the spec:` doc comment.
-/

namespace SkweakAnalysis

/-- A row of the token-label matrix: one entry per source; an entry `0`
means "no label assigned by this source" (the null label). -/
abbrev Row := List ℕ

/-- The token-label matrix `self.L`: one row per token of the corpus,
in corpus order. -/
abbrev LMat := List Row

/-- Number of nonzero entries of a row, i.e. the number of sources that
gave the token a non-null label (`(row != 0).sum()`). -/
def nonzeroCount (r : Row) : ℕ := (r.filter (fun x => x ≠ 0)).length

/-- Embeds `LFAnalysis._overlapped_data_points` (analysis.py lines
418-421): `np.where(np.ravel((self._L_sparse != 0).sum(axis=1)) > 1, 1, 0)` —
the indicator of rows with two or more nonzero entries. -/
def _overlapped_data_points (L : LMat) : List ℕ :=
  L.map (fun r => if 1 < nonzeroCount r then 1 else 0)

/-- Maximum entry of a row.  `self._L_sparse.max(axis=1)` on a CSR matrix
with non-negative entries returns exactly the row maximum (an all-zero
row, stored or implicit, has maximum 0). -/
def rowMax (r : Row) : ℕ := r.foldr max 0

/-- Per-row conflict test of `LFAnalysis._conflicted_data_points`
(analysis.py lines 388-396).  The source computes
`np.max(m @ (L != 0) != L, axis=1)` where `m` is the diagonal matrix of
row maxima: entry `(i, j)` of `m @ (L != 0)` is `rowMax * [L[i,j] ≠ 0]`,
so row `i` is flagged iff some column `j` has
`(if L[i,j] ≠ 0 then rowMax else 0) ≠ L[i,j]`. -/
def conflictedRow (r : Row) : Bool :=
  r.any (fun x => (if x ≠ 0 then rowMax r else 0) != x)

/-- Embeds `LFAnalysis._conflicted_data_points` (analysis.py lines
388-396): the indicator vector of rows labeled differently by two LFs. -/
def _conflicted_data_points (L : LMat) : List ℕ :=
  L.map (fun r => if conflictedRow r then 1 else 0)

/-- Reading an element of a mapped list through `getD` at an in-range
index evaluates the function at the underlying element. -/
theorem getD_map_at {α β : Type} (f : α → β) (L : List α) (i : ℕ)
    (hi : i < L.length) (d : β) :
    (L.map f).getD i d = f (L.get ⟨i, hi⟩) := by
  rw [List.getD_eq_getD_get?, List.get?_map, List.get?_eq_get hi]
  rfl

/-- Every element of a row is bounded by the row maximum. -/
theorem le_rowMax {r : Row} {x : ℕ} (hx : x ∈ r) : x ≤ rowMax r := by
  induction r with
  | nil => cases hx
  | cons y ys ih =>
      rcases List.mem_cons.mp hx with h | h
      · subst h; exact le_max_left _ _
      · exact le_trans (ih h) (le_max_right _ _)

/-- The row maximum is attained by some element, unless it is zero. -/
theorem rowMax_mem_or_zero (r : Row) : rowMax r ∈ r ∨ rowMax r = 0 := by
  induction r with
  | nil => exact Or.inr rfl
  | cons y ys ih =>
      rcases le_or_lt (rowMax ys) y with h | h
      · left
        have : rowMax (y :: ys) = y := max_eq_left h
        rw [this]; exact List.mem_cons_self _ _
      · have hmax : rowMax (y :: ys) = rowMax ys := max_eq_right (le_of_lt h)
        rcases ih with hm | hz
        · left; rw [hmax]; exact List.mem_cons_of_mem _ hm
        · right; rw [hmax, hz]

/-- Characterization of the max-based conflict test: a row is flagged iff
it contains two distinct nonzero values. -/
theorem conflictedRow_iff (r : Row) :
    conflictedRow r = true ↔
      ∃ a ∈ r, ∃ b ∈ r, a ≠ 0 ∧ b ≠ 0 ∧ a ≠ b := by
  constructor
  · intro h
    rcases List.any_eq_true.mp h with ⟨x, hx, hne⟩
    by_cases hx0 : x = 0
    · subst hx0; simp at hne
    · rw [if_pos hx0] at hne
      have hMx : rowMax r ≠ x := by simpa using hne
      have hxle : x ≤ rowMax r := le_rowMax hx
      have hMpos : rowMax r ≠ 0 := by
        intro h0
        exact hx0 (Nat.le_zero.mp (h0 ▸ hxle))
      rcases rowMax_mem_or_zero r with hM | hM
      · exact ⟨x, hx, rowMax r, hM, hx0, hMpos, fun h' => hMx h'.symm⟩
      · exact absurd hM hMpos
  · rintro ⟨a, ha, b, hb, ha0, hb0, hab⟩
    apply List.any_eq_true.mpr
    rcases lt_or_gt_of_ne hab with hlt | hgt
    · refine ⟨a, ha, ?_⟩
      rw [if_pos ha0]
      have : a < rowMax r := lt_of_lt_of_le hlt (le_rowMax hb)
      simpa using (ne_of_gt this)
    · refine ⟨b, hb, ?_⟩
      rw [if_pos hb0]
      have : b < rowMax r := lt_of_lt_of_le hgt (le_rowMax ha)
      simpa using (ne_of_gt this)

/-- A list containing two distinct elements has more than one element. -/
theorem one_lt_length_of_two_mem {l : List ℕ} {a b : ℕ}
    (ha : a ∈ l) (hb : b ∈ l) (hab : a ≠ b) : 1 < l.length := by
  match l with
  | [] => cases ha
  | [x] =>
      rcases List.mem_singleton.mp ha with rfl
      rcases List.mem_singleton.mp hb with rfl
      exact absurd rfl hab
  | x :: y :: t => simp

/-- Two distinct nonzero values in a row force at least two nonzero
entries. -/
theorem two_le_nonzeroCount_of_distinct {r : Row} {a b : ℕ}
    (ha : a ∈ r) (hb : b ∈ r) (ha0 : a ≠ 0) (hb0 : b ≠ 0) (hab : a ≠ b) :
    2 ≤ nonzeroCount r := by
  have ha' : a ∈ r.filter (fun x => x ≠ 0) :=
    List.mem_filter.mpr ⟨ha, by simpa using ha0⟩
  have hb' : b ∈ r.filter (fun x => x ≠ 0) :=
    List.mem_filter.mpr ⟨hb, by simpa using hb0⟩
  exact one_lt_length_of_two_mem ha' hb' hab

/-- Claim C2: for every matrix row, the conflict indicator computed by
the max-based algorithm of `_conflicted_data_points` equals 1 iff the
row contains two or more distinct nonzero label values; a row whose
nonzero entries all share one value is never flagged. -/
theorem C2_conflict_indicator (L : LMat) (i : ℕ) (hi : i < L.length) :
    ((_conflicted_data_points L).getD i 0 = 1 ↔
      ∃ a ∈ L.get ⟨i, hi⟩, ∃ b ∈ L.get ⟨i, hi⟩, a ≠ 0 ∧ b ≠ 0 ∧ a ≠ b)
    ∧ (∀ v : ℕ, (∀ x ∈ L.get ⟨i, hi⟩, x ≠ 0 → x = v) →
        (_conflicted_data_points L).getD i 0 = 0) := by
  have hmap : (_conflicted_data_points L).getD i 0 =
      (if conflictedRow (L.get ⟨i, hi⟩) then 1 else 0) :=
    getD_map_at _ L i hi 0
  constructor
  · rw [hmap]
    by_cases h : conflictedRow (L.get ⟨i, hi⟩)
    · rw [if_pos h]
      exact ⟨fun _ => (conflictedRow_iff _).mp h, fun _ => rfl⟩
    · rw [if_neg h]
      constructor
      · intro h1; exact absurd h1 (by norm_num)
      · intro hex
        exact absurd ((conflictedRow_iff _).mpr hex) h
  · intro v hv
    rw [hmap, if_neg]
    intro hc
    rcases (conflictedRow_iff _).mp hc with ⟨a, ha, b, hb, ha0, hb0, hab⟩
    exact hab ((hv a ha ha0).trans (hv b hb hb0).symm)

/-- Witness for C2: the row `[1, 2]` carries two distinct nonzero labels
and is flagged as a conflict. -/
theorem C2_witness :
    (_conflicted_data_points [[1, 2]]).getD 0 0 = 1 :=
  (C2_conflict_indicator [[1, 2]] 0 (by decide)).1.mpr
    ⟨1, by decide, 2, by decide, by decide, by decide, by decide⟩

/-- Claim C3: the overlap indicator of `_overlapped_data_points` equals 1
iff the row has at least two nonzero entries, regardless of agreement;
a token labeled by exactly one source has overlap indicator 0 and
conflict indicator 0. -/
theorem C3_overlap_indicator (L : LMat) (i : ℕ) (hi : i < L.length) :
    ((_overlapped_data_points L).getD i 0 = 1 ↔
      2 ≤ nonzeroCount (L.get ⟨i, hi⟩))
    ∧ (nonzeroCount (L.get ⟨i, hi⟩) = 1 →
        (_overlapped_data_points L).getD i 0 = 0 ∧
        (_conflicted_data_points L).getD i 0 = 0) := by
  have hmap : (_overlapped_data_points L).getD i 0 =
      (if 1 < nonzeroCount (L.get ⟨i, hi⟩) then 1 else 0) :=
    getD_map_at _ L i hi 0
  have hmap' : (_conflicted_data_points L).getD i 0 =
      (if conflictedRow (L.get ⟨i, hi⟩) then 1 else 0) :=
    getD_map_at _ L i hi 0
  constructor
  · rw [hmap]
    by_cases h : 1 < nonzeroCount (L.get ⟨i, hi⟩)
    · rw [if_pos h]
      exact ⟨fun _ => h, fun _ => rfl⟩
    · rw [if_neg h]
      constructor
      · intro h1; exact absurd h1 (by norm_num)
      · intro h2; omega
  · intro hone
    constructor
    · rw [hmap, if_neg]; omega
    · rw [hmap', if_neg]
      intro hc
      rcases (conflictedRow_iff _).mp hc with ⟨a, ha, b, hb, ha0, hb0, hab⟩
      have := two_le_nonzeroCount_of_distinct ha hb ha0 hb0 hab
      omega

/-- Witness for C3: the row `[5, 0]` is labeled by exactly one source and
is neither overlapped nor conflicted. -/
theorem C3_witness :
    (_overlapped_data_points [[5, 0]]).getD 0 0 = 0 ∧
    (_conflicted_data_points [[5, 0]]).getD 0 0 = 0 :=
  (C3_overlap_indicator [[5, 0]] 0 (by decide)).2 (by decide)

/-- Positions (0-based) at which the value `v` occurs in a flat list.
This embeds the inverted index built by `_get_row_indices_with_labels`
(analysis.py lines 424-434): the CSR matrix
`csr_matrix((cols, (L.ravel(), cols)))` stores, in its row `v`, exactly
the flat positions `p` with `L.ravel()[p] = v` (scipy's COO-to-CSR
conversion keeps the explicitly stored zero datum at flat position 0,
so position 0 is present like any other). -/
def flatPositions (v : ℕ) : List ℕ → List ℕ
  | [] => []
  | x :: xs =>
      if x = v then 0 :: (flatPositions v xs).map (fun p => p + 1)
      else (flatPositions v xs).map (fun p => p + 1)

/-- Zero is never in a list of successors. -/
theorem zero_not_mem_map_succ {l : List ℕ} : 0 ∉ l.map (fun p => p + 1) := by
  intro h
  rcases List.mem_map.mp h with ⟨a, _, ha⟩
  exact Nat.succ_ne_zero a ha

/-- Successor membership in a shifted position list. -/
theorem mem_map_succ {l : List ℕ} {q : ℕ} :
    q + 1 ∈ l.map (fun p => p + 1) ↔ q ∈ l := by
  constructor
  · intro h
    rcases List.mem_map.mp h with ⟨a, ha, hq⟩
    have haq : a = q := by omega
    subst haq; exact ha
  · intro h; exact List.mem_map.mpr ⟨q, h, rfl⟩

/-- Membership in `flatPositions` is exactly occurrence of the value at
that position. -/
theorem mem_flatPositions {v : ℕ} {xs : List ℕ} {p : ℕ} :
    p ∈ flatPositions v xs ↔ xs.get? p = some v := by
  induction xs generalizing p with
  | nil => simp [flatPositions]
  | cons x xs ih =>
      rw [flatPositions]
      by_cases hxv : x = v
      · subst hxv
        rw [if_pos rfl]
        cases p with
        | zero => exact iff_of_true (List.mem_cons_self _ _) rfl
        | succ q =>
            rw [List.mem_cons]
            constructor
            · rintro (h | h)
              · exact absurd h (Nat.succ_ne_zero q)
              · exact ih.mp (mem_map_succ.mp h)
            · intro h
              exact Or.inr (mem_map_succ.mpr (ih.mpr h))
      · rw [if_neg hxv]
        cases p with
        | zero =>
            constructor
            · intro h; exact absurd h zero_not_mem_map_succ
            · intro h; exact absurd (Option.some.inj h) hxv
        | succ q =>
            constructor
            · intro h; exact ih.mp (mem_map_succ.mp h)
            · intro h; exact mem_map_succ.mpr (ih.mpr h)

/-- Row index list for one label value `v`:
`np.unique(np.unravel_index(row.data, self.L.shape)[0])` — each flat
position `p` of an occurrence of `v` is mapped to its matrix row `p / n`
(where `n` is the number of sources, i.e. the row width), and duplicates
are removed.  Flat positions are enumerated in increasing order, so the
deduplicated quotients are already in the sorted order `np.unique`
produces. -/
def rowIdxList (n : ℕ) (L : LMat) (v : ℕ) : List ℕ :=
  ((flatPositions v L.flatten).map (fun p => p / n)).dedup

/-- Maximum entry of the whole matrix, `self.L.max()`. -/
def LmaxVal (L : LMat) : ℕ := rowMax (L.map rowMax)

/-- Embeds `LFAnalysis._get_row_indices_with_labels` (analysis.py lines
424-434): for every label value from 0 to `self.L.max()`, the rows where
it occurs.  The source iterates over the rows of the inverted-index CSR
matrix of shape `(L.max() + 1, L.size)`, which is exactly an enumeration
of the label values `0, …, L.max()`. -/
def _get_row_indices_with_labels (n : ℕ) (L : LMat) : List (List ℕ) :=
  (List.range (LmaxVal L + 1)).map (rowIdxList n L)

/-- Every entry of the matrix is bounded by the matrix maximum. -/
theorem le_LmaxVal {L : LMat} {r : Row} {x : ℕ} (hr : r ∈ L) (hx : x ∈ r) :
    x ≤ LmaxVal L :=
  le_trans (le_rowMax hx) (le_rowMax (List.mem_map_of_mem rowMax hr))

/-- Index lookup of a rectangular matrix flattened row-major. -/
theorem flatten_get?_rect {n : ℕ} (hn : 0 < n) :
    ∀ (L : LMat), (∀ r ∈ L, r.length = n) → ∀ p : ℕ,
      L.flatten.get? p = (L.get? (p / n)).bind (fun r => r.get? (p % n)) := by
  intro L
  induction L with
  | nil => intro _ p; simp
  | cons r L ih =>
      intro hrect p
      have hrlen : r.length = n := hrect r (List.mem_cons_self _ _)
      have hL : ∀ r' ∈ L, r'.length = n := fun r' h =>
        hrect r' (List.mem_cons_of_mem _ h)
      rw [List.flatten_cons]
      by_cases hp : p < n
      · have h1 : p < r.length := by rw [hrlen]; exact hp
        rw [List.get?_append h1, Nat.div_eq_of_lt hp, Nat.mod_eq_of_lt hp]
        rfl
      · have hnp : n ≤ p := le_of_not_lt hp
        have h1 : r.length ≤ p := by rw [hrlen]; exact hnp
        rw [List.get?_append_right h1, hrlen, ih hL (p - n),
          Nat.div_eq_sub_div hn hnp, Nat.mod_eq_sub_mod hnp]
        rfl

/-- Membership in one cached row-index list is exactly occurrence of the
label value somewhere in that matrix row (for a rectangular matrix with
positive width). -/
theorem mem_rowIdxList {n : ℕ} (hn : 0 < n) {L : LMat}
    (hrect : ∀ r ∈ L, r.length = n) {v i : ℕ} :
    i ∈ rowIdxList n L v ↔ ∃ r, L.get? i = some r ∧ v ∈ r := by
  rw [rowIdxList, List.mem_dedup]
  constructor
  · intro h
    rcases List.mem_map.mp h with ⟨p, hp, rfl⟩
    have hflat := mem_flatPositions.mp hp
    rw [flatten_get?_rect hn L hrect p] at hflat
    cases hLp : L.get? (p / n) with
    | none => rw [hLp] at hflat; exact absurd hflat (by simp)
    | some r =>
        rw [hLp] at hflat
        exact ⟨r, rfl, List.get?_mem hflat⟩
  · rintro ⟨r, hr, hv⟩
    obtain ⟨⟨j, hjlt⟩, hj⟩ := List.mem_iff_get.mp hv
    have hjn : j < n := by
      rw [hrect r (List.get?_mem hr)] at hjlt
      exact hjlt
    refine List.mem_map.mpr ⟨j + i * n, ?_, ?_⟩
    · apply mem_flatPositions.mpr
      rw [flatten_get?_rect hn L hrect]
      have hdiv : (j + i * n) / n = i := by
        rw [Nat.add_mul_div_right _ _ hn, Nat.div_eq_of_lt hjn]; omega
      have hmod : (j + i * n) % n = j := by
        rw [Nat.add_mul_mod_self_right, Nat.mod_eq_of_lt hjn]
      rw [hdiv, hmod, hr]
      show r.get? j = some v
      rw [List.get?_eq_get hjlt, hj]
    · rw [Nat.add_mul_div_right _ _ hn, Nat.div_eq_of_lt hjn]; omega

/-- The cached list read through `getD` with default `[]`: an in-range
label value gives its row-index list, a value beyond the matrix maximum
has no entry (the default `[]` stands for the absent entry). -/
theorem rowIndices_getD (n : ℕ) (L : LMat) (v : ℕ) :
    (_get_row_indices_with_labels n L).getD v [] =
      if v < LmaxVal L + 1 then rowIdxList n L v else [] := by
  by_cases h : v < LmaxVal L + 1
  · rw [if_pos h]
    have hv : v < (List.range (LmaxVal L + 1)).length := by
      simpa using h
    rw [_get_row_indices_with_labels, getD_map_at _ _ v hv]
    congr 1
    exact List.get_range _ _
  · rw [if_neg h]
    apply List.getD_eq_default
    simp only [_get_row_indices_with_labels, List.length_map,
      List.length_range]
    omega

/-- Claim C7: for every label value `v ≥ 1`, the cached label row index
for `v` holds exactly the matrix row indices where `v` appears in some
column — including row 0 — and is empty (or absent, read as the default
`[]`) for values that never occur in the matrix. -/
theorem C7_label_row_index (n : ℕ) (L : LMat) (hn : 0 < n)
    (hrect : ∀ r ∈ L, r.length = n) (v i : ℕ) (hv : 1 ≤ v) :
    i ∈ (_get_row_indices_with_labels n L).getD v [] ↔
      ∃ r, L.get? i = some r ∧ v ∈ r := by
  rw [rowIndices_getD]
  by_cases h : v < LmaxVal L + 1
  · rw [if_pos h]
    exact mem_rowIdxList hn hrect
  · rw [if_neg h]
    simp only [List.not_mem_nil, false_iff]
    rintro ⟨r, hr, hvr⟩
    have := le_LmaxVal (List.get?_mem hr) hvr
    omega

/-- Witness for C7: in the one-token, one-source matrix `[[1]]`, the row
index 0 is recorded for label value 1 (token 0 carries label 1). -/
theorem C7_witness :
    0 ∈ (_get_row_indices_with_labels 1 [[1]]).getD 1 [] :=
  (C7_label_row_index 1 [[1]] (by decide) (by decide) 1 0 (by decide)).mpr
    ⟨[1], by decide, by decide⟩

/-- The reserved null label. -/
def nullLabel : String := "O"

/-- Embeds the in-place normalization at the top of
`LFAnalysis._get_token_level_labels` (analysis.py lines 329-334):
if `'O' not in original_labels` it is inserted at position 0; else if
`original_labels[0] != 'O'`, `list.remove` deletes the first occurrence
of `'O'` and it is re-inserted at position 0.  The result is the value
of the caller's (mutated) list after the call. -/
def relocateO (original_labels : List String) : List String :=
  if nullLabel ∈ original_labels then
    if original_labels.head? = some nullLabel then original_labels
    else nullLabel :: original_labels.erase nullLabel
  else nullLabel :: original_labels

/-- Splits a character list at its first dash into (text before, text
after); `none` when no dash occurs. -/
def dashSplit : List Char → Option (List Char × List Char)
  | [] => none
  | c :: cs =>
      if c = '-' then some ([], cs)
      else
        match dashSplit cs with
        | none => none
        | some (p, b) => some (c :: p, b)

/-- Modelled from the spec: labels "may carry a prefix (e.g., an
IOB-style prefix) separated from a base label name" (§3); this returns
the base name of a possibly prefixed label (the text after the first
dash), or the label itself when it carries no prefix. -/
def labelBase (s : String) : String :=
  match dashSplit s.toList with
  | none => s
  | some (_, b) => String.mk b

/-- Modelled from the spec: the prefix of a label when it carries one
(the text before the first dash). -/
def labelPre (s : String) : Option String :=
  match dashSplit s.toList with
  | none => none
  | some (p, _) => some (String.mk p)

/-- Insertion into an insertion-ordered mapping with contiguous indices
(Python dict semantics: a new key is appended with the next index, an
existing key leaves the mapping unchanged). -/
def dictInsert (d : List (String × ℕ)) (k : String) : List (String × ℕ) :=
  if k ∈ d.map Prod.fst then d else d ++ [(k, d.length)]

/-- Modelled from the spec: `skweak.utils._index_labels` is imported by
`analysis.py` but its source is not under review.  Per the spec (§4.1)
it receives the label list (null label already forced to the front) and
a normalization flag and produces a label-to-index mapping with
contiguous indices in first-occurrence order — collapsing differently
prefixed variants of one base label to a single index when
normalization is on — together with the set of prefixes observed and
the set of base (prefix-stripped) label names.  The ordered label list
of §4.1(a) is read off the mapping keys by the caller. -/
def _index_labels (original_labels : List String) (normalise : Bool) :
    List (String × ℕ) × List String × List String :=
  (original_labels.foldl
      (fun d l => dictInsert d (if normalise then labelBase l else l)) [],
   (original_labels.filterMap labelPre).dedup,
   (original_labels.map labelBase).dedup)

/-- Embeds `LFAnalysis._get_token_level_labels` (analysis.py lines
322-347) as a state-passing function.  The first component is the value
of the caller's `original_labels` list after the in-place mutation (the
Python code calls `insert`/`remove` on the argument, which aliases the
caller's list); the remaining components are the returned
`(labels, label2idx, prefixes, labels_without_prefix)` — the last one is
called base labels here.  `labels` is generated from the keys of
`label2idx`. -/
def _get_token_level_labels (strict_match : Bool)
    (original_labels : List String) :
    List String × List String × List (String × ℕ) × List String ×
      List String :=
  let mutated := relocateO original_labels
  let z := _index_labels mutated (!strict_match)
  (mutated, z.1.map Prod.fst, z.1, z.2.1, z.2.2)

/-- The null label has no prefix to strip. -/
theorem labelBase_null : labelBase nullLabel = nullLabel := by decide

/-- After the in-place normalization the list always starts with the
null label. -/
theorem relocateO_head (ls : List String) :
    (relocateO ls).head? = some nullLabel := by
  rw [relocateO]
  by_cases h1 : nullLabel ∈ ls
  · rw [if_pos h1]
    by_cases h2 : ls.head? = some nullLabel
    · rw [if_pos h2]; exact h2
    · rw [if_neg h2]; rfl
  · rw [if_neg h1]; rfl

/-- A list whose optional head is known is a cons. -/
theorem eq_cons_of_head? {α : Type} {l : List α} {a : α}
    (h : l.head? = some a) : ∃ t, l = a :: t := by
  cases l with
  | nil => cases h
  | cons x t =>
      have hx : x = a := Option.some.inj h
      exact ⟨t, by rw [hx]⟩

/-- Growing a dict only appends entries: the previous dict is a prefix
of the grown one. -/
theorem dictInsert_extends (d : List (String × ℕ)) (k : String) :
    d <+: dictInsert d k := by
  rw [dictInsert]
  by_cases h : k ∈ d.map Prod.fst
  · rw [if_pos h]
  · rw [if_neg h]; exact ⟨[(k, d.length)], rfl⟩

/-- Folding insertions over a list preserves the initial dict as a
prefix. -/
theorem dict_foldl_extends (key : String → String) :
    ∀ (ls : List String) (d : List (String × ℕ)),
      d <+: ls.foldl (fun d l => dictInsert d (key l)) d := by
  intro ls
  induction ls with
  | nil => intro d; exact List.prefix_refl d
  | cons x xs ih =>
      intro d
      exact (dictInsert_extends d (key x)).trans (ih (dictInsert d (key x)))

/-- The keys of a dict built by `dictInsert` stay duplicate-free. -/
theorem dict_keys_nodup (key : String → String) :
    ∀ (ls : List String) (d : List (String × ℕ)),
      (d.map Prod.fst).Nodup →
      ((ls.foldl (fun d l => dictInsert d (key l)) d).map Prod.fst).Nodup := by
  intro ls
  induction ls with
  | nil => intro d h; exact h
  | cons x xs ih =>
      intro d h
      apply ih
      simp only [dictInsert]
      by_cases hc : key x ∈ d.map Prod.fst
      · rw [if_pos hc]; exact h
      · rw [if_neg hc, List.map_append]
        refine List.Nodup.append h (List.nodup_singleton _) ?_
        intro a ha hb
        rcases List.mem_singleton.mp hb with rfl
        exact hc ha

/-- Claim C5: for every input label list, the constructed ordered label
list has the null label at index 0 — inserted at the front when absent,
relocated when present but misplaced — and contains it exactly once,
even when the input mentions it several times. -/
theorem C5_null_label_fronted (strict_match : Bool)
    (original_labels : List String) :
    ((_get_token_level_labels strict_match original_labels).2.1.head? =
        some nullLabel)
    ∧ ((_get_token_level_labels strict_match original_labels).2.1.count
        nullLabel = 1)
    ∧ (nullLabel ∉ original_labels →
        relocateO original_labels = nullLabel :: original_labels) := by
  obtain ⟨t, ht⟩ := eq_cons_of_head? (relocateO_head original_labels)
  have hkey : (if !strict_match then labelBase nullLabel else nullLabel) =
      nullLabel := by
    by_cases h : (!strict_match) = true
    · rw [if_pos h, labelBase_null]
    · rw [if_neg h]
  have hd0 : dictInsert []
      (if !strict_match then labelBase nullLabel else nullLabel) =
      [(nullLabel, 0)] := by
    rw [hkey]
    rfl
  have hfold : (_get_token_level_labels strict_match original_labels).2.2.1 =
      t.foldl (fun d l =>
        dictInsert d (if !strict_match then labelBase l else l))
        [(nullLabel, 0)] := by
    show (relocateO original_labels).foldl _ [] = _
    rw [ht, List.foldl_cons, hd0]
  obtain ⟨u, hu⟩ := dict_foldl_extends
    (fun l => if !strict_match then labelBase l else l) t [(nullLabel, 0)]
  have hlabels : (_get_token_level_labels strict_match original_labels).2.1 =
      nullLabel :: u.map Prod.fst := by
    show ((_get_token_level_labels strict_match original_labels).2.2.1).map
        Prod.fst = _
    rw [hfold, ← hu, List.map_append]
    rfl
  have hnodup : ((_get_token_level_labels strict_match
      original_labels).2.1).Nodup := by
    show (((_get_token_level_labels strict_match
        original_labels).2.2.1).map Prod.fst).Nodup
    rw [hfold]
    exact dict_keys_nodup _ t [(nullLabel, 0)] (by simp)
  refine ⟨?_, ?_, ?_⟩
  · rw [hlabels]; rfl
  · have hmem : nullLabel ∈
        (_get_token_level_labels strict_match original_labels).2.1 := by
      rw [hlabels]; exact List.mem_cons_self _ _
    exact List.count_eq_one_of_mem hnodup hmem
  · intro h
    rw [relocateO, if_neg h]

/-- Abstract annotated document: an ordered token sequence (represented
by its length) and a mapping from source name to labeled spans
`(start, end, label)` covering the token range `[start, end)`.  This is
the capability interface the spec prescribes (§3, §9): the engine reads
only the token count and the spans per source. -/
structure PyDoc where
  nTokens : ℕ
  spans : List (String × List (ℕ × ℕ × String))
deriving DecidableEq

/-- CPython iterates a `set` in an order determined by the (per-process
randomized) string hashes, so `list(set(xs))` is some duplicate-free
enumeration of the distinct elements of `xs`; which enumeration is not
specified by the code.  An admissible enumeration function stands for
one concrete behaviour of the interpreter. -/
def pySetOrderOK (ord : List String → List String) : Prop :=
  ∀ xs : List String, (ord xs).Nodup ∧ ∀ x : String, x ∈ ord xs ↔ x ∈ xs

/-- Name-index pairs starting at a given index. -/
def enumFrom (i : ℕ) : List String → List (String × ℕ)
  | [] => []
  | s :: ss => (s, i) :: enumFrom (i + 1) ss

/-- The dict comprehension
`{source: i for i, source in enumerate(result_sources)}` of
`_get_corpus_sources`.  `result_sources` comes from `list(set(...))`
and is therefore duplicate-free, so an association list searched with
`lookup` is an exact model of the dict. -/
def sources2idxOf (result_sources : List String) : List (String × ℕ) :=
  enumFrom 0 result_sources

/-- Embeds `LFAnalysis._get_corpus_sources` (analysis.py lines 350-367),
parameterized by the set-enumeration order `ord` (see `pySetOrderOK`).
With no explicit source list the union of all documents' span-mapping
keys is accumulated into a set and listed; with an explicit list,
`list(set(sources))` de-duplicates it in set-enumeration order. -/
def _get_corpus_sources (ord : List String → List String)
    (corpus : List PyDoc) (sources : Option (List String)) :
    List String × List (String × ℕ) :=
  match sources with
  | none =>
      let result := ord (corpus.foldl
        (fun acc d => acc ++ d.spans.map Prod.fst) [])
      (result, sources2idxOf result)
  | some ss =>
      let result := ord ss
      (result, sources2idxOf result)

/-- Looking an element of a duplicate-free list up in its enumeration
finds its position. -/
theorem enumFrom_lookup :
    ∀ (res : List String) (i0 : ℕ), res.Nodup →
      ∀ (j : ℕ) (hj : j < res.length),
        (enumFrom i0 res).lookup (res.get ⟨j, hj⟩) = some (i0 + j) := by
  intro res
  induction res with
  | nil => intro i0 _ j hj; exact absurd hj (Nat.not_lt_zero j)
  | cons s ss ih =>
      intro i0 hnd j hj
      cases j with
      | zero => simp [enumFrom, List.lookup]
      | succ m =>
          have hm : m < ss.length := by
            simpa using hj
          have hnd' := List.nodup_cons.mp hnd
          have hne : s ≠ ss.get ⟨m, hm⟩ := by
            intro h
            exact hnd'.1 (h ▸ List.get_mem ss m hm)
          have hget : (s :: ss).get ⟨m + 1, hj⟩ = ss.get ⟨m, hm⟩ := rfl
          rw [hget]
          have hbeq : (ss[m] == s) = false :=
            beq_eq_false_iff_ne.mpr (fun h => hne h.symm)
          have hstep : (enumFrom i0 (s :: ss)).lookup (ss.get ⟨m, hm⟩) =
              (enumFrom (i0 + 1) ss).lookup (ss.get ⟨m, hm⟩) := by
            simp [enumFrom, List.lookup, hbeq]
          rw [hstep, ih (i0 + 1) hnd'.2 m hm]
          congr 1
          omega

/-- Plain de-duplication is one admissible set-enumeration order (it
keeps the last occurrence of each element). -/
theorem dedup_setOrderOK : pySetOrderOK List.dedup := by
  intro xs
  exact ⟨List.nodup_dedup xs, fun x => List.mem_dedup⟩

/-- Counterexample to claim C4: the resolver does not preserve the
caller's order.  `list(set(sources))` enumerates a hash-ordered set;
under the admissible enumeration `List.dedup` the explicit list
["B","A","B"] resolves to ["A","B"], not to the claimed caller-order
["B","A"]. -/
theorem C4_counterexample :
    pySetOrderOK List.dedup ∧
    (_get_corpus_sources List.dedup [] (some (["B", "A", "B"]))).1 ≠
      ["B", "A"] := by
  refine ⟨dedup_setOrderOK, ?_⟩
  decide

/-- Claim C4 (amended): for every explicitly supplied source list the
resolver returns a duplicate-free list holding exactly the distinct
supplied names — in the unspecified enumeration order of the Python
set, not necessarily the caller's supply order — and assigns column
indices contiguously from 0 following the order of the returned
list. -/
theorem C4_amended_source_resolution (ord : List String → List String)
    (hord : pySetOrderOK ord) (corpus : List PyDoc) (ss : List String) :
    ((_get_corpus_sources ord corpus (some ss)).1).Nodup
    ∧ (∀ x : String, x ∈ (_get_corpus_sources ord corpus (some ss)).1 ↔
        x ∈ ss)
    ∧ (∀ (j : ℕ)
        (hj : j < (_get_corpus_sources ord corpus (some ss)).1.length),
        ((_get_corpus_sources ord corpus (some ss)).2).lookup
            ((_get_corpus_sources ord corpus (some ss)).1.get ⟨j, hj⟩) =
          some j) := by
  refine ⟨(hord ss).1, (hord ss).2, ?_⟩
  intro j hj
  have h := enumFrom_lookup (ord ss) 0 (hord ss).1 j hj
  simpa using h

/-- Witness for C4: the resolved source list for the explicit input
["B","A","B"] is duplicate-free. -/
theorem C4_witness :
    ((_get_corpus_sources List.dedup [] (some (["B", "A", "B"]))).1).Nodup :=
  (C4_amended_source_resolution List.dedup dedup_setOrderOK []
    (["B", "A", "B"])).1

/-- Vertical concatenation of matrix blocks.  `np.concatenate` raises
`ValueError: need at least one array to concatenate` on an empty block
list, modelled as `none`; otherwise the blocks are stacked in order. -/
def npConcatenate (blocks : List LMat) : Option LMat :=
  match blocks with
  | [] => none
  | _ => some blocks.flatten

/-- Modelled from the spec: `skweak.utils._spans_to_array` is imported
by `analysis.py` but its source is not under review.  Per the spec
(§4.3) it builds, for one document, a (token count × source count)
block whose entry `[t, s]` is the label index of the span covering
token `t` for source `s` if one exists, else 0; under strict matching
(the `prefixes` argument is passed) the exact prefixed span label
determines the index, otherwise the span label is resolved to its
normalized base-label index.  A span label missing from the mapping
resolves to the null index 0, and when several spans of one source
cover the same token the first listed one is taken (the spec leaves
both choices open). -/
def _spans_to_array (doc : PyDoc) (sources : List String)
    (label2idx : List (String × ℕ)) (baseLabels : List String)
    (prefixes : Option (List String)) : LMat :=
  (List.range doc.nTokens).map (fun t =>
    sources.map (fun s =>
      match doc.spans.lookup s with
      | none => 0
      | some spanList =>
          match spanList.find? (fun sp => sp.1 ≤ t && t < sp.2.1) with
          | none => 0
          | some sp =>
              (label2idx.lookup
                (match prefixes with
                 | some _ => sp.2.2
                 | none => labelBase sp.2.2)).getD 0))

/-- Embeds `LFAnalysis._corpus_to_token_array` (analysis.py lines
370-382): one `_spans_to_array` block per document, vertically
concatenated with `np.concatenate` in corpus order. -/
def _corpus_to_token_array (sources : List String)
    (label2idx : List (String × ℕ)) (baseLabels : List String)
    (prefixes : Option (List String)) (corpus : List PyDoc) :
    Option LMat :=
  npConcatenate (corpus.map
    (fun doc => _spans_to_array doc sources label2idx baseLabels prefixes))

/-- Post-construction state of an `LFAnalysis` engine: the fields set by
`__init__` (analysis.py lines 38-49). -/
structure LFA where
  sources : List String
  sources2idx : List (String × ℕ)
  strict_match : Bool
  labels : List String
  label2idx : List (String × ℕ)
  prefixes : List String
  baseLabels : List String
  L : LMat
  label_row_indices : List (List ℕ)
deriving DecidableEq

/-- Embeds `LFAnalysis.__init__` (analysis.py lines 18-49) as a
state-passing function parameterized by the set-enumeration order.
It returns the constructed engine together with the caller-visible
values of the two argument objects after construction: the labels list
(mutated in place through `_get_token_level_labels`, which aliases the
caller's list) and the corpus (no construction step writes to the
documents — the embedded code only reads them, and the spec fixes the
corpus as read-only input, §3).  `none` models the `ValueError` raised
by `np.concatenate` when the corpus is empty. -/
def LFAnalysis_init (ord : List String → List String)
    (corpus : List PyDoc) (labels : List String)
    (sources : Option (List String)) (strict_match : Bool) :
    Option (LFA × List String × List PyDoc) :=
  let sres := _get_corpus_sources ord corpus sources
  let z := _get_token_level_labels strict_match labels
  match _corpus_to_token_array sres.1 z.2.2.1 z.2.2.2.2
      (if strict_match then some z.2.2.2.1 else none) corpus with
  | none => none
  | some L =>
      some ({ sources := sres.1, sources2idx := sres.2,
              strict_match := strict_match,
              labels := z.2.1, label2idx := z.2.2.1,
              prefixes := z.2.2.2.1, baseLabels := z.2.2.2.2,
              L := L,
              label_row_indices :=
                _get_row_indices_with_labels sres.1.length L },
            z.1, corpus)

/-- A one-token document where source LF1 labels token 0 as PER and
source LF2 provides no annotation. -/
def exampleDoc : PyDoc :=
  ⟨1, [("LF1", [(0, 1, "PER")]), ("LF2", [])]⟩

/-- Claim C6: with the same labels, sources and strict-match mode, the
token-label matrix of the two-document corpus [A, B] equals the
single-document matrix of [A] stacked on top of the single-document
matrix of [B]. -/
theorem C6_matrix_block_concat (sources : List String)
    (label2idx : List (String × ℕ)) (baseLabels : List String)
    (prefixes : Option (List String)) (A B : PyDoc) :
    (_corpus_to_token_array sources label2idx baseLabels prefixes [A]).bind
      (fun mA =>
        (_corpus_to_token_array sources label2idx baseLabels prefixes
            [B]).map (fun mB => mA ++ mB)) =
      _corpus_to_token_array sources label2idx baseLabels prefixes
        [A, B] := by
  simp [_corpus_to_token_array, npConcatenate]

/-- Claim C10: constructing an engine over an empty corpus always fails
during construction — `np.concatenate` rejects the empty list of
per-document blocks — rather than producing an engine with an empty
0-row matrix. -/
theorem C10_empty_corpus_fails (ord : List String → List String)
    (labels : List String) (sources : Option (List String))
    (strict_match : Bool) :
    LFAnalysis_init ord [] labels sources strict_match = none := rfl

/-- Claim C9: construction mutates the caller-supplied label list in
place — the null label is inserted at position 0 when absent, and the
list is reordered when the null label is present but not first — while
the corpus argument is never modified. -/
theorem C9_label_list_mutation (ord : List String → List String)
    (corpus : List PyDoc) (labels : List String)
    (sources : Option (List String)) (strict_match : Bool)
    (e : LFA) (labelsAfter : List String) (corpusAfter : List PyDoc)
    (h : LFAnalysis_init ord corpus labels sources strict_match =
      some (e, labelsAfter, corpusAfter)) :
    labelsAfter = relocateO labels
    ∧ (nullLabel ∉ labels → labelsAfter = nullLabel :: labels)
    ∧ (nullLabel ∈ labels → labels.head? ≠ some nullLabel →
        labelsAfter ≠ labels)
    ∧ corpusAfter = corpus := by
  simp only [LFAnalysis_init] at h
  split at h
  · exact absurd h (by simp)
  · have h' := Option.some.inj h
    have hla : labelsAfter = relocateO labels := by
      have := congrArg (fun p => p.2.1) h'
      exact this.symm
    have hca : corpusAfter = corpus := by
      have := congrArg (fun p => p.2.2) h'
      exact this.symm
    refine ⟨hla, ?_, ?_, hca⟩
    · intro habs
      rw [hla, relocateO, if_neg habs]
    · intro hmem hhead heq
      apply hhead
      rw [← heq, hla]
      exact relocateO_head labels

/-- Witness for C9: constructing over the one-document corpus with the
label list ["PER"] leaves the caller's list as ["O", "PER"] (the null
label was inserted in place at position 0) and the corpus argument
unchanged. -/
theorem C9_witness :
    ((LFAnalysis_init List.dedup [exampleDoc] (["PER"])
          (some (["LF1", "LF2"])) false).map (fun p => p.2.1) =
        some (nullLabel :: ["PER"]))
    ∧ ((LFAnalysis_init List.dedup [exampleDoc] (["PER"])
          (some (["LF1", "LF2"])) false).map (fun p => p.2.2) =
        some [exampleDoc]) := by
  cases hI : LFAnalysis_init List.dedup [exampleDoc] (["PER"])
      (some (["LF1", "LF2"])) false with
  | none => exact absurd hI (by decide)
  | some p =>
      obtain ⟨e, la, ca⟩ := p
      have h9 := C9_label_list_mutation List.dedup [exampleDoc] (["PER"])
        (some (["LF1", "LF2"])) false e la ca hI
      constructor
      · show some la = some (nullLabel :: ["PER"])
        rw [h9.2.1 (by decide)]
      · show some ca = some [exampleDoc]
        rw [h9.2.2.2]

/-- Exact model of a numpy float cell: a rational value or one of the
IEEE special values numpy produces on division by zero. -/
inductive NpFloat where
  | val : ℚ → NpFloat
  | nan : NpFloat
  | inf : NpFloat
  | ninf : NpFloat
deriving DecidableEq

/-- Numpy elementwise division: `0/0` is `nan`, `x/0` for nonzero `x` is
a signed infinity (numpy emits a RuntimeWarning but does not raise),
otherwise the exact quotient. -/
def npDiv (a b : ℚ) : NpFloat :=
  if b ≠ 0 then NpFloat.val (a / b)
  else if a = 0 then NpFloat.nan
  else if 0 < a then NpFloat.inf
  else NpFloat.ninf

/-- The largest finite double, which `np.nan_to_num` substitutes for a
positive infinity. -/
def floatMax : ℚ := (2 ^ 53 - 1) * 2 ^ 971

/-- `np.nan_to_num` with default arguments: `nan` becomes 0 and the
infinities become the largest-magnitude finite doubles. -/
def nanToNum : NpFloat → ℚ
  | NpFloat.val q => q
  | NpFloat.nan => 0
  | NpFloat.inf => floatMax
  | NpFloat.ninf => -floatMax

/-- Number of rows whose column `j` is nonzero:
`np.ravel((self._L_sparse != 0).sum(axis=0))[j]` (the sum runs over the
row indices of the matrix). -/
def colNZ (L : LMat) (j : ℕ) : ℕ :=
  ((List.range L.length).map (fun i =>
    if (L.getD i []).getD j 0 ≠ 0 then 1 else 0)).sum

/-- Numerator of the aggregated overlap/conflict ratio for column `j`:
`(L_sparse_indicator.T @ z)[j]` for an indicator vector `z` indexed by
rows. -/
def aggNum (L : LMat) (z : List ℕ) (j : ℕ) : ℕ :=
  ((List.range L.length).map (fun i =>
    (if (L.getD i []).getD j 0 ≠ 0 then 1 else 0) * z.getD i 0)).sum

/-- Embeds the `agg=True` branch of `LFAnalysis.lf_overlaps`
(analysis.py lines 180-190): per source,
`np.nan_to_num(ind.T @ overlapped / ind.sum(axis=0))`. -/
def lf_overlaps_agg (n : ℕ) (L : LMat) : List ℚ :=
  (List.range n).map (fun j =>
    nanToNum (npDiv (aggNum L (_overlapped_data_points L) j) (colNZ L j)))

/-- Embeds the `agg=True` branch of `LFAnalysis.lf_conflicts`
(analysis.py lines 236-246): per source,
`np.nan_to_num(ind.T @ conflicted / ind.sum(axis=0))`. -/
def lf_conflicts_agg (n : ℕ) (L : LMat) : List ℚ :=
  (List.range n).map (fun j =>
    nanToNum (npDiv (aggNum L (_conflicted_data_points L) j) (colNZ L j)))

/-- Sum of an indicator vector over a selected row set:
`np.sum(z[indices])`. -/
def selSum (z : List ℕ) (indices : List ℕ) : ℕ :=
  (indices.map (fun i => z.getD i 0)).sum

/-- Count, within the selected rows, of rows whose column `j` holds the
label value `v`: `(self._L_sparse[indices] == v).sum(axis=0)[j]`. -/
def labelColCount (L : LMat) (indices : List ℕ) (v j : ℕ) : ℕ :=
  (indices.map (fun i => if (L.getD i []).getD j 0 = v then 1 else 0)).sum

/-- Numerator `((L_sparse[indices] == v).T @ z[indices])[j]` of the
per-label ratio for column `j`. -/
def labelColNum (L : LMat) (z : List ℕ) (indices : List ℕ) (v j : ℕ) : ℕ :=
  (indices.map (fun i =>
    (if (L.getD i []).getD j 0 = v then 1 else 0) * z.getD i 0)).sum

/-- One row of the per-label overlap/conflict tables:
`np.ravel(np.nan_to_num((x.T @ z[indices]).T / x.sum(axis=0)))` where
`x = (self._L_sparse[indices] == v)`. -/
def perLabelRatioRow (L : LMat) (z : List ℕ) (indices : List ℕ)
    (v n : ℕ) : List ℚ :=
  (List.range n).map (fun j =>
    nanToNum (npDiv (labelColNum L z indices v j)
      (labelColCount L indices v j)))

/-- Shared loop skeleton of the five per-label result tables
(`label_overlap`, `label_conflict` and the `agg=False` branches of
`lf_coverages`, `lf_overlaps`, `lf_conflicts`): iterate over
`enumerate(self.label_row_indices)` — i.e. over the label values
`0, …, L.max()` paired with their cached row-index lists — skip the
null label and labels with no occurrences, and emit one row per
remaining label, keyed by `self.labels[label_idx]`.  Reading the label
with default `nullLabel` models only the in-range accesses: in a
constructed engine every matrix entry is below `len(self.labels)`, so
`self.labels[label_idx]` never faults. -/
def perLabelTable {α : Type} (labels : List String) (n : ℕ) (L : LMat)
    (payload : ℕ → List ℕ → α) : List (String × α) :=
  (List.range (LmaxVal L + 1)).filterMap (fun vi =>
    if labels.getD vi nullLabel = nullLabel ∨ rowIdxList n L vi = [] then
      none
    else some (labels.getD vi nullLabel, payload vi (rowIdxList n L vi)))

/-- Embeds `LFAnalysis.label_overlap` (analysis.py lines 52-66): per
label, `np.sum(overlaps[indices]) / len(indices)`. -/
def label_overlap (labels : List String) (n : ℕ) (L : LMat) :
    List (String × ℚ) :=
  perLabelTable labels n L (fun _ indices =>
    ((selSum (_overlapped_data_points L) indices : ℚ) /
      (indices.length : ℚ)))

/-- Embeds `LFAnalysis.label_conflict` (analysis.py lines 69-96): per
label, `np.sum(conflicts[indices]) / len(indices)`. -/
def label_conflict (labels : List String) (n : ℕ) (L : LMat) :
    List (String × ℚ) :=
  perLabelTable labels n L (fun _ indices =>
    ((selSum (_conflicted_data_points L) indices : ℚ) /
      (indices.length : ℚ)))

/-- Embeds `LFAnalysis._covered_by_label_counts` (analysis.py lines
412-415): `np.ravel((self._L_sparse == label_val).sum(axis=0))`. -/
def _covered_by_label_counts (n : ℕ) (L : LMat) (v : ℕ) : List ℕ :=
  (List.range n).map (fun j =>
    (L.map (fun r => if r.getD j 0 = v then 1 else 0)).sum)

/-- Embeds the `agg=False` branch of `LFAnalysis.lf_coverages`
(analysis.py lines 149-158): per label,
`self._covered_by_label_counts(label_idx) / len(indices)`. -/
def lf_coverages_perlabel (labels : List String) (n : ℕ) (L : LMat) :
    List (String × List ℚ) :=
  perLabelTable labels n L (fun vi indices =>
    (_covered_by_label_counts n L vi).map (fun c =>
      (c : ℚ) / (indices.length : ℚ)))

/-- Embeds the `agg=False` branch of `LFAnalysis.lf_overlaps`
(analysis.py lines 191-212). -/
def lf_overlaps_perlabel (labels : List String) (n : ℕ) (L : LMat) :
    List (String × List ℚ) :=
  perLabelTable labels n L (fun vi indices =>
    perLabelRatioRow L (_overlapped_data_points L) indices vi n)

/-- Embeds the `agg=False` branch of `LFAnalysis.lf_conflicts`
(analysis.py lines 247-268). -/
def lf_conflicts_perlabel (labels : List String) (n : ℕ) (L : LMat) :
    List (String × List ℚ) :=
  perLabelTable labels n L (fun vi indices =>
    perLabelRatioRow L (_conflicted_data_points L) indices vi n)

/-- Values of column `j` of the matrix. -/
def colValues (L : LMat) (j : ℕ) : List ℕ := L.map (fun r => r.getD j 0)

/-- Embeds `LFAnalysis.lf_target_labels` for one source column
(analysis.py lines 99-106): `sorted(list(set(self._L_sparse[:, j].data)))`
— the sorted distinct nonzero values of the column (the CSR matrix is
built from the dense matrix, so `.data` holds exactly the nonzero
entries). -/
def lf_target_labels_col (L : LMat) (j : ℕ) : List ℕ :=
  List.insertionSort (fun a b => a ≤ b)
    (((colValues L j).filter (fun x => x ≠ 0)).dedup)

/-- Denominator of the aggregated coverage for source `j` (analysis.py
lines 133-141): the number of rows covered by the union of the
`_covered_by_label` indicators over the source's inferred target
labels. -/
def total_token_count (L : LMat) (j : ℕ) : ℕ :=
  (L.map (fun r =>
    if (lf_target_labels_col L j).any (fun v => r.contains v) then 1
    else 0)).sum

/-- Embeds the `agg=True` branch of `LFAnalysis.lf_coverages`
(analysis.py lines 129-148):
`covered_token_counts / total_token_counts`.  Unlike the aggregated
`lf_overlaps` and `lf_conflicts`, this division is not wrapped in
`np.nan_to_num`, so its cells are raw numpy floats. -/
def lf_coverages_agg (n : ℕ) (L : LMat) : List NpFloat :=
  (List.range n).map (fun j =>
    npDiv (colNZ L j) (total_token_count L j))

/-- Membership in a per-label result table. -/
theorem mem_perLabelTable {α : Type} (labels : List String) (n : ℕ)
    (L : LMat) (payload : ℕ → List ℕ → α) (p : String × α) :
    p ∈ perLabelTable labels n L payload ↔
      ∃ vi, vi < LmaxVal L + 1 ∧
        labels.getD vi nullLabel ≠ nullLabel ∧
        rowIdxList n L vi ≠ [] ∧
        p = (labels.getD vi nullLabel, payload vi (rowIdxList n L vi)) := by
  rw [perLabelTable, List.mem_filterMap]
  constructor
  · rintro ⟨vi, hvi, hsome⟩
    rw [List.mem_range] at hvi
    by_cases hcond : labels.getD vi nullLabel = nullLabel ∨
        rowIdxList n L vi = []
    · rw [if_pos hcond] at hsome
      cases hsome
    · rw [if_neg hcond] at hsome
      push_neg at hcond
      exact ⟨vi, hvi, hcond.1, hcond.2, (Option.some.inj hsome).symm⟩
  · rintro ⟨vi, hvi, h1, h2, hp⟩
    refine ⟨vi, List.mem_range.mpr hvi, ?_⟩
    rw [if_neg (by push_neg; exact ⟨h1, h2⟩), hp]

/-- All per-label result tables share one key list, whatever their
payloads. -/
theorem perLabelTable_keys {α β : Type} (labels : List String) (n : ℕ)
    (L : LMat) (f : ℕ → List ℕ → α) (g : ℕ → List ℕ → β) :
    (perLabelTable labels n L f).map Prod.fst =
      (perLabelTable labels n L g).map Prod.fst := by
  rw [perLabelTable, perLabelTable]
  generalize List.range (LmaxVal L + 1) = lst
  induction lst with
  | nil => rfl
  | cons x xs ih =>
      rw [List.filterMap_cons, List.filterMap_cons]
      by_cases hc : labels.getD x nullLabel = nullLabel ∨
          rowIdxList n L x = []
      · rw [if_pos hc, if_pos hc]
        exact ih
      · rw [if_neg hc, if_neg hc, List.map_cons, List.map_cons, ih]

/-- Claim C8: every per-label result table is keyed by exactly those
labels that differ from the null label and occur at least once in the
matrix; the null label and zero-occurrence labels are always absent
(and cause no error), and all five per-label tables share one key
set. -/
theorem C8_result_table_rows (labels : List String) (n : ℕ) (L : LMat)
    (hn : 0 < n) (hrect : ∀ r ∈ L, r.length = n)
    (hent : ∀ r ∈ L, ∀ x ∈ r, x < labels.length) (s : String) :
    (s ∈ (label_overlap labels n L).map Prod.fst ↔
      (s ≠ nullLabel ∧ ∃ vi, vi < labels.length ∧
        labels.getD vi nullLabel = s ∧ ∃ r ∈ L, vi ∈ r))
    ∧ (label_conflict labels n L).map Prod.fst =
        (label_overlap labels n L).map Prod.fst
    ∧ (lf_coverages_perlabel labels n L).map Prod.fst =
        (label_overlap labels n L).map Prod.fst
    ∧ (lf_overlaps_perlabel labels n L).map Prod.fst =
        (label_overlap labels n L).map Prod.fst
    ∧ (lf_conflicts_perlabel labels n L).map Prod.fst =
        (label_overlap labels n L).map Prod.fst := by
  refine ⟨?_, perLabelTable_keys labels n L _ _,
    perLabelTable_keys labels n L _ _, perLabelTable_keys labels n L _ _,
    perLabelTable_keys labels n L _ _⟩
  constructor
  · intro hs
    rcases List.mem_map.mp hs with ⟨p, hp, hps⟩
    rcases (mem_perLabelTable labels n L _ p).mp hp with
      ⟨vi, _, hvo, hvne, hpe⟩
    have hfst : p.1 = labels.getD vi nullLabel := by rw [hpe]
    rcases List.exists_mem_of_ne_nil _ hvne with ⟨i, hi⟩
    rcases (mem_rowIdxList hn hrect).mp hi with ⟨r, hri, hvir⟩
    have hrL : r ∈ L := List.get?_mem hri
    refine ⟨?_, vi, hent r hrL vi hvir, ?_, r, hrL, hvir⟩
    · rw [← hps, hfst]; exact hvo
    · rw [← hps, hfst]
  · rintro ⟨hs, vi, hlen, hgd, r, hrL, hvir⟩
    have hmax : vi < LmaxVal L + 1 :=
      Nat.lt_succ_of_le (le_LmaxVal hrL hvir)
    obtain ⟨i, hi⟩ := List.mem_iff_get?.mp hrL
    have hne : rowIdxList n L vi ≠ [] :=
      List.ne_nil_of_mem ((mem_rowIdxList hn hrect).mpr ⟨r, hi, hvir⟩)
    refine List.mem_map.mpr
      ⟨(labels.getD vi nullLabel, _),
       (mem_perLabelTable labels n L _ _).mpr
         ⟨vi, hmax, ?_, hne, rfl⟩, hgd⟩
    rw [hgd]; exact hs

/-- Witness for C8: for labels [O, PER] over the one-cell matrix [[1]],
the PER label (index 1, one occurrence) is a key of the overlap
table. -/
theorem C8_witness :
    "PER" ∈ (label_overlap (["O", "PER"]) 1 [[1]]).map Prod.fst :=
  (C8_result_table_rows (["O", "PER"]) 1 [[1]] (by decide) (by decide)
      (by decide) "PER").1.mpr
    ⟨by decide, 1, by decide, by decide, [1], by decide, by decide⟩

/-- Numpy maps `0/0` to NaN. -/
theorem npDiv_zero_zero : npDiv 0 0 = NpFloat.nan := by
  simp [npDiv]

/-- Reading a mapped range list at an in-range index. -/
theorem getD_range_map {β : Type} (f : ℕ → β) (n j : ℕ) (hj : j < n)
    (d : β) : ((List.range n).map f).getD j d = f j := by
  have hj' : j < (List.range n).length := by simpa using hj
  rw [getD_map_at f _ j hj' d, List.get_range]

/-- A source column with no nonzero entries contributes a zero
numerator to the aggregated ratios. -/
theorem colNZ_zero_aggNum {L : LMat} {j : ℕ} (z : List ℕ)
    (h : colNZ L j = 0) : aggNum L z j = 0 := by
  rw [colNZ] at h
  rw [aggNum]
  apply List.sum_eq_zero
  intro x hx
  rcases List.mem_map.mp hx with ⟨i, hi, rfl⟩
  have h0 : (if (L.getD i []).getD j 0 ≠ 0 then (1 : ℕ) else 0) = 0 := by
    simpa using List.sum_eq_zero_iff.mp h _
      (List.mem_map_of_mem (fun i =>
        if (L.getD i []).getD j 0 ≠ 0 then (1 : ℕ) else 0) hi)
  rw [h0, Nat.zero_mul]

/-- A zero per-label denominator forces a zero per-label numerator. -/
theorem labelColCount_zero_num {L : LMat} {indices : List ℕ} {v j : ℕ}
    (z : List ℕ) (h : labelColCount L indices v j = 0) :
    labelColNum L z indices v j = 0 := by
  rw [labelColCount] at h
  rw [labelColNum]
  apply List.sum_eq_zero
  intro x hx
  rcases List.mem_map.mp hx with ⟨i, hi, rfl⟩
  have h0 : (if (L.getD i []).getD j 0 = v then (1 : ℕ) else 0) = 0 := by
    simpa using List.sum_eq_zero_iff.mp h _
      (List.mem_map_of_mem (fun i =>
        if (L.getD i []).getD j 0 = v then (1 : ℕ) else 0) hi)
  rw [h0, Nat.zero_mul]

/-- When the union of a source's inferred target labels covers no
tokens, the source itself covers no tokens: any nonzero entry of its
column would be one of its target labels and would cover its own
row. -/
theorem total_zero_colNZ {L : LMat} {j : ℕ}
    (h : total_token_count L j = 0) : colNZ L j = 0 := by
  rw [colNZ]
  apply List.sum_eq_zero
  intro x hx
  rcases List.mem_map.mp hx with ⟨i, hi, rfl⟩
  by_cases hz : (L.getD i []).getD j 0 = 0
  · exact if_neg (fun hne => hne hz)
  · exfalso
    have hiL : i < L.length := by
      by_contra hge
      apply hz
      rw [List.getD_eq_default _ _ (le_of_not_lt hge)]
      rfl
    have hrget : L.getD i [] = L.get ⟨i, hiL⟩ := by
      rw [List.getD_eq_getD_get?, List.get?_eq_get hiL]
      rfl
    have hrL : L.getD i [] ∈ L := hrget ▸ List.get_mem L i hiL
    have hjr : j < (L.getD i []).length := by
      by_contra hge
      apply hz
      rw [List.getD_eq_default _ _ (le_of_not_lt hge)]
    have hvr : (L.getD i []).getD j 0 ∈ L.getD i [] := by
      have hveq : (L.getD i []).getD j 0 = (L.getD i []).get ⟨j, hjr⟩ := by
        rw [List.getD_eq_getD_get?, List.get?_eq_get hjr]
        rfl
      rw [hveq]
      exact List.get_mem _ j hjr
    have hvc : (L.getD i []).getD j 0 ∈ colValues L j :=
      List.mem_map.mpr ⟨L.getD i [], hrL, rfl⟩
    have hvf : (L.getD i []).getD j 0 ∈
        (colValues L j).filter (fun x => x ≠ 0) :=
      List.mem_filter.mpr ⟨hvc, by simpa using hz⟩
    have hvt : (L.getD i []).getD j 0 ∈ lf_target_labels_col L j := by
      rw [lf_target_labels_col]
      exact (List.perm_insertionSort _ _).mem_iff.mpr
        (List.mem_dedup.mpr hvf)
    have hterm : (if (lf_target_labels_col L j).any
        (fun v => (L.getD i []).contains v) then (1 : ℕ) else 0) = 1 := by
      rw [if_pos]
      apply List.any_eq_true.mpr
      refine ⟨(L.getD i []).getD j 0, hvt, ?_⟩
      exact List.elem_eq_true_of_mem hvr
    have hz0 := List.sum_eq_zero_iff.mp h _
      (List.mem_map_of_mem (fun r =>
        if (lf_target_labels_col L j).any (fun v => r.contains v)
        then (1 : ℕ) else 0) hrL)
    rw [hterm] at hz0
    exact one_ne_zero hz0

/-- Claim C1 (amended): a zero denominator yields a 0 cell in every
ratio metric that applies `np.nan_to_num` — the aggregated and
per-label variants of `lf_overlaps` and `lf_conflicts` — and the
per-label tables (rows of `perLabelTable` payloads) exist only for
labels with occurrences; but the aggregated `lf_coverages` divides
without `nan_to_num`, so a source whose inferred target-label set
covers no tokens gets the cell NaN, not 0. -/
theorem C1_amended_zero_denominators (labels : List String) (n : ℕ)
    (L : LMat) (j : ℕ) (hj : j < n) :
    (colNZ L j = 0 →
      (lf_overlaps_agg n L).getD j 1 = 0 ∧
      (lf_conflicts_agg n L).getD j 1 = 0)
    ∧ (∀ (indices : List ℕ) (v : ℕ), labelColCount L indices v j = 0 →
        (perLabelRatioRow L (_overlapped_data_points L) indices v
            n).getD j 1 = 0 ∧
        (perLabelRatioRow L (_conflicted_data_points L) indices v
            n).getD j 1 = 0)
    ∧ (∀ p ∈ lf_overlaps_perlabel labels n L, ∃ vi,
        rowIdxList n L vi ≠ [] ∧
        p.2 = perLabelRatioRow L (_overlapped_data_points L)
          (rowIdxList n L vi) vi n)
    ∧ (total_token_count L j = 0 →
        (lf_coverages_agg n L).getD j (NpFloat.val 0) = NpFloat.nan) := by
  refine ⟨?_, ?_, ?_, ?_⟩
  · intro h0
    constructor
    · rw [lf_overlaps_agg, getD_range_map _ n j hj,
        colNZ_zero_aggNum _ h0, h0]
      simp [npDiv_zero_zero, nanToNum]
    · rw [lf_conflicts_agg, getD_range_map _ n j hj,
        colNZ_zero_aggNum _ h0, h0]
      simp [npDiv_zero_zero, nanToNum]
  · intro indices v h0
    constructor
    · rw [perLabelRatioRow, getD_range_map _ n j hj,
        labelColCount_zero_num _ h0, h0]
      simp [npDiv_zero_zero, nanToNum]
    · rw [perLabelRatioRow, getD_range_map _ n j hj,
        labelColCount_zero_num _ h0, h0]
      simp [npDiv_zero_zero, nanToNum]
  · intro p hp
    rcases (mem_perLabelTable labels n L _ p).mp hp with
      ⟨vi, _, _, hvne, hpe⟩
    exact ⟨vi, hvne, by rw [hpe]⟩
  · intro ht
    rw [lf_coverages_agg, getD_range_map _ n j hj,
      total_zero_colNZ ht, ht]
    simp [npDiv_zero_zero]

/-- Witness for C1 (amended): over the all-null 1×1 matrix the only
source has zero denominators everywhere; the nan_to_num-protected
aggregated overlap cell is 0 while the aggregated coverage cell is
NaN. -/
theorem C1_witness :
    (lf_overlaps_agg 1 [[0]]).getD 0 1 = 0 ∧
    (lf_coverages_agg 1 [[0]]).getD 0 (NpFloat.val 0) = NpFloat.nan :=
  ⟨((C1_amended_zero_denominators [] 1 [[0]] 0 (by decide)).1
      (by decide)).1,
   (C1_amended_zero_denominators [] 1 [[0]] 0 (by decide)).2.2.2
     (by decide)⟩

/-- Counterexample to claim C1: `lf_coverages(agg=True)` lacks the
`np.nan_to_num` wrapping used by `lf_overlaps` and `lf_conflicts`.
For the engine built over `exampleDoc` the source LF2 never labels a
token, so its inferred target-label set covers no tokens and its
aggregated coverage cell is NaN — not 0, contradicting the claim. -/
theorem C1_counterexample :
    ((LFAnalysis_init List.dedup [exampleDoc] (["O", "PER"])
          (some (["LF1", "LF2"])) false).map
        (fun p => (lf_coverages_agg p.1.sources.length p.1.L).getD 1
          (NpFloat.val 0))) = some NpFloat.nan := by
  decide

end SkweakAnalysis
